import Mathlib

/-!
Verification of the core tokenize/substitute/render logic of the
script-replacer repository (src/workers.py).

Strings are modelled as lists of characters.  The regex `\$\w+\$` used by
`re.findall` / `re.split` in the source is modelled by an explicit scanner:
at a given position a match succeeds exactly when the character is a dollar
sign, followed by a maximal non-empty run of word characters, followed by a
dollar sign (a shorter run cannot succeed since it would have to end at a
word character, so greediness with backtracking degenerates to this test).
Scanning is left-to-right and non-overlapping, continuing after each match,
which is exactly `re.findall` / `re.split` semantics for this pattern.
-/

namespace ScriptReplacer

/-- Strings of the Python source, modelled as lists of characters. -/
abbrev Str := List Char

/-- Python `\w` (word character), restricted to its ASCII part:
letters, digits and underscore. -/
def isWordChar (c : Char) : Bool :=
  c.isAlphanum || c = '_'

/-- Python `\s` (whitespace), ASCII part: space, tab, newline, carriage
return, vertical tab, form feed. -/
def isPySpace (c : Char) : Bool :=
  c = ' ' || c = '\t' || c = '\n' || c = '\r' || c = '\x0b' || c = '\x0c'

/-- Blank test: `re.search(r'^\s*$', s)` succeeds exactly when every character of `s`
is whitespace (the empty string included): the blank test used throughout
`workers.py`. -/
def isBlank (s : Str) : Bool :=
  s.all isPySpace

/-- Attempt to match the pattern `\$\w+\$` at the start of `s`.
Returns the matched token (delimiters included) and the remainder of the
input after the match. -/
def tryMatch : Str → Option (Str × Str)
  | [] => none
  | c :: t =>
    if c = '$' then
      match t.dropWhile isWordChar with
      | '$' :: rest =>
        if (t.takeWhile isWordChar).isEmpty then none
        else some ('$' :: (t.takeWhile isWordChar ++ ['$']), rest)
      | _ => none
    else none

theorem dropWhile_length_le (p : Char → Bool) : ∀ s : Str, (s.dropWhile p).length ≤ s.length := by
  intro s
  induction s with
  | nil => simp [List.dropWhile]
  | cons c t ih =>
    by_cases h : p c
    · simpa [List.dropWhile, h] using Nat.le_succ_of_le ih
    · simp [List.dropWhile, h]

theorem tryMatch_some_length {s tok rest : Str} (h : tryMatch s = some (tok, rest)) :
    rest.length < s.length := by
  cases s with
  | nil => simp [tryMatch] at h
  | cons c t =>
    simp only [tryMatch] at h
    by_cases hc : c = '$'
    · simp only [hc, if_pos rfl] at h
      cases hd : t.dropWhile isWordChar with
      | nil => rw [hd] at h; simp at h
      | cons d ds =>
        rw [hd] at h
        by_cases hdd : d = '$'
        · subst hdd
          by_cases he : (t.takeWhile isWordChar).isEmpty
          · simp [he] at h
          · simp only [he, if_neg, Bool.false_eq_true, not_false_eq_true] at h
            have hds : ds = rest := by
              simpa using congrArg Prod.snd (Option.some.inj h)
            have h1 : ds.length + 1 ≤ t.length := by
              have h2 := dropWhile_length_le isWordChar t
              rw [hd] at h2
              simpa using h2
            subst hds
            simp only [List.length_cons]
            omega
        · simp [hdd] at h
    · simp [hc] at h

/-- Fuel-driven left-to-right scanner collecting all matches of the token
pattern: the model of `re.findall(r'\$\w+\$', s)`.  The fuel argument is a
termination device only (see `reFindallGo_fuel`): with fuel at least the
length of the input, it never runs out. -/
def reFindallGo : Nat → Str → List Str
  | _, [] => []
  | 0, _ :: _ => []
  | fuel + 1, c :: t =>
    match tryMatch (c :: t) with
    | some (tok, rest) => tok :: reFindallGo fuel rest
    | none => reFindallGo fuel t

/-- Model of `re.findall(r'\$\w+\$', s)`. -/
def reFindall (s : Str) : List Str :=
  reFindallGo s.length s

/-- Fuel-driven scanner collecting the fragments between matches:
the model of `re.split(r'\$\w+\$', s)` (the pattern has no capture group,
so split returns only the non-matched fragments).  `cur` accumulates the
current fragment in reverse. -/
def reSplitGo : Nat → Str → Str → List Str
  | _, cur, [] => [cur.reverse]
  | 0, cur, _ :: _ => [cur.reverse]
  | fuel + 1, cur, c :: t =>
    match tryMatch (c :: t) with
    | some (_, rest) => cur.reverse :: reSplitGo fuel [] rest
    | none => reSplitGo fuel (c :: cur) t

/-- Model of `re.split(r'\$\w+\$', s)`. -/
def reSplit (s : Str) : List Str :=
  reSplitGo s.length [] s

theorem reFindallGo_fuel {f1 f2 : Nat} : ∀ {s : Str}, s.length ≤ f1 → s.length ≤ f2 →
    reFindallGo f1 s = reFindallGo f2 s := by
  induction f1 generalizing f2 with
  | zero =>
    intro s h1 _
    have : s = [] := List.eq_nil_of_length_eq_zero (Nat.le_zero.mp h1)
    subst this
    cases f2 <;> rfl
  | succ f1 ih =>
    intro s h1 h2
    cases s with
    | nil => cases f2 <;> rfl
    | cons c t =>
      cases f2 with
      | zero => simp at h2
      | succ f2 =>
        simp only [reFindallGo]
        cases hm : tryMatch (c :: t) with
        | some p =>
          obtain ⟨tok, rest⟩ := p
          have hlt := tryMatch_some_length hm
          simp only [List.length_cons] at h1 h2 hlt
          exact congrArg (tok :: ·) (ih (by omega) (by omega))
        | none =>
          simp only [List.length_cons] at h1 h2
          exact ih (by omega) (by omega)

theorem reSplitGo_fuel {f1 f2 : Nat} : ∀ {cur s : Str}, s.length ≤ f1 → s.length ≤ f2 →
    reSplitGo f1 cur s = reSplitGo f2 cur s := by
  induction f1 generalizing f2 with
  | zero =>
    intro cur s h1 _
    have : s = [] := List.eq_nil_of_length_eq_zero (Nat.le_zero.mp h1)
    subst this
    cases f2 <;> rfl
  | succ f1 ih =>
    intro cur s h1 h2
    cases s with
    | nil => cases f2 <;> rfl
    | cons c t =>
      cases f2 with
      | zero => simp at h2
      | succ f2 =>
        simp only [reSplitGo]
        cases hm : tryMatch (c :: t) with
        | some p =>
          obtain ⟨tok, rest⟩ := p
          have hlt := tryMatch_some_length hm
          simp only [List.length_cons] at h1 h2 hlt
          exact congrArg (cur.reverse :: ·) (ih (by omega) (by omega))
        | none =>
          simp only [List.length_cons] at h1 h2
          exact ih (by omega) (by omega)

theorem reFindall_nil : reFindall [] = [] := rfl

theorem reFindall_match {s tok rest : Str} (h : tryMatch s = some (tok, rest)) :
    reFindall s = tok :: reFindall rest := by
  cases s with
  | nil => simp [tryMatch] at h
  | cons c t =>
    have hlt := tryMatch_some_length h
    simp only [reFindall, List.length_cons, reFindallGo, h]
    exact congrArg (tok :: ·) (reFindallGo_fuel (by simp only [List.length_cons] at hlt; omega) le_rfl)

theorem reFindall_step {c : Char} {t : Str} (h : tryMatch (c :: t) = none) :
    reFindall (c :: t) = reFindall t := by
  simp only [reFindall, List.length_cons, reFindallGo, h]

/-- Auxiliary characterization of `reSplit` used for inductive reasoning:
`reSplitGo` with sufficient fuel, started with accumulator `cur`. -/
def reSplitFrom (cur s : Str) : List Str :=
  reSplitGo s.length cur s

theorem reSplit_eq_from (s : Str) : reSplit s = reSplitFrom [] s := rfl

theorem reSplitFrom_nil (cur : Str) : reSplitFrom cur [] = [cur.reverse] := rfl

theorem reSplitFrom_match {s tok rest : Str} (cur : Str) (h : tryMatch s = some (tok, rest)) :
    reSplitFrom cur s = cur.reverse :: reSplitFrom [] rest := by
  cases s with
  | nil => simp [tryMatch] at h
  | cons c t =>
    have hlt := tryMatch_some_length h
    simp only [reSplitFrom, List.length_cons, reSplitGo, h]
    exact congrArg (cur.reverse :: ·)
      (reSplitGo_fuel (by simp only [List.length_cons] at hlt; omega) le_rfl)

theorem reSplitFrom_step {c : Char} {t : Str} (cur : Str) (h : tryMatch (c :: t) = none) :
    reSplitFrom cur (c :: t) = reSplitFrom (c :: cur) t := by
  simp only [reSplitFrom, List.length_cons, reSplitGo, h]

/-- Scan-structure induction principle: to prove a property of every
string, prove it for the empty string, for a string beginning with a token
match (assuming it for the remainder after the match), and for a string
whose head starts no match (assuming it for the tail). -/
theorem scanInduction (P : Str → Prop)
    (hnil : P [])
    (hmatch : ∀ tok rest s, tryMatch s = some (tok, rest) → P rest → P s)
    (hstep : ∀ c t, tryMatch (c :: t) = none → P t → P (c :: t)) :
    ∀ s, P s := by
  suffices h : ∀ n s, List.length s ≤ n → P s from fun s => h s.length s le_rfl
  intro n
  induction n with
  | zero =>
    intro s hs
    have : s = [] := List.eq_nil_of_length_eq_zero (Nat.le_zero.mp hs)
    subst this
    exact hnil
  | succ n ih =>
    intro s hs
    cases hm : tryMatch s with
    | some p =>
      obtain ⟨tok, rest⟩ := p
      have hlt := tryMatch_some_length hm
      exact hmatch tok rest s hm (ih rest (by omega))
    | none =>
      cases s with
      | nil => exact hnil
      | cons c t =>
        simp only [List.length_cons] at hs
        exact hstep c t hm (ih t (by omega))

/-- Python `str.splitlines()` (line-break characters modelled: `\n`,
`\r\n`, `\r`): splits into lines without the line breaks; a trailing break
produces no extra empty line; the empty string yields the empty list.
`cur` accumulates the current line in reverse. -/
def splitlinesGo : Str → Str → List Str
  | cur, [] => if cur.isEmpty then [] else [cur.reverse]
  | cur, '\r' :: '\n' :: t => cur.reverse :: splitlinesGo [] t
  | cur, '\r' :: t => cur.reverse :: splitlinesGo [] t
  | cur, '\n' :: t => cur.reverse :: splitlinesGo [] t
  | cur, c :: t => splitlinesGo (c :: cur) t

/-- Model of `cfg.splitlines()` as used at workers.py line 200. -/
def pySplitlines (s : Str) : List Str :=
  splitlinesGo [] s

/-- The three cell formats threaded through `sub_get_string`
(`workbook.ftbody`, `workbook.fthighlight`, `workbook.fterror`), abstracted
as the kind tag of a rendered segment. -/
inductive SegKind
  | literal
  | filled
  | unresolved
deriving DecidableEq, Repr

/-- One `format, text` pair appended to `format_line` in `sub_get_string`. -/
structure Segment where
  kind : SegKind
  text : Str
deriving DecidableEq, Repr

/-- A Python dict built from an association list (later bindings shadow
earlier ones, as in a dict comprehension), queried with `dict.get`. -/
def dictGet (m : List (Str × Str)) (k : Str) : Option Str :=
  m.foldl (fun acc p => if p.1 = k then some p.2 else acc) none

/-- Model of `repl.get(reg[i], '')` at workers.py line 207. -/
def dictGetD (m : List (Str × Str)) (k : Str) : Str :=
  (dictGet m k).getD []

/-- Lines 205-206: a literal fragment is emitted (with the body format)
only when it is not blank. -/
def litSeg (l : Str) : List Segment :=
  if isBlank l then [] else [⟨SegKind.literal, l⟩]

/-- Lines 207-211: the looked-up value is emitted with the highlight
format when it is not blank, otherwise the original token string is
emitted with the error format. -/
def tokSeg (m : List (Str × Str)) (t : Str) : List Segment :=
  let value := dictGetD m t
  if isBlank value then [⟨SegKind.unresolved, t⟩] else [⟨SegKind.filled, value⟩]

/-- The loop of lines 204-213: one step per token match, consuming the
literal fragment before it; after the last token, the last remaining
fragment (`non_reg[-1]`) is emitted if not blank.  `re.split` always
returns one more fragment than there are matches, so when the token list
is exhausted exactly one fragment remains. -/
def emitLine (m : List (Str × Str)) : List Str → List Str → List Segment
  | ls, [] => litSeg (ls.getLastD [])
  | ls, t :: ts => litSeg (ls.headD []) ++ tokSeg m t ++ emitLine m ls.tail ts

/-- Rendering of one template line (the body of the `for line` loop of
`sub_get_string`, lines 201-213). -/
def subLine (m : List (Str × Str)) (line : Str) : List Segment :=
  emitLine m (reSplit line) (reFindall line)

/-- Model of `BuildOutputWorker.sub_get_string` (workers.py lines 186-215): one
segment sequence per line of `cfg.splitlines()`. -/
def sub_get_string (cfg : Str) (repl : List (Str × Str)) : List (List Segment) :=
  (pySplitlines cfg).map (subLine repl)

/-- The dedup loop of `FillValuesWorker.get_template_vars` (lines 66-69):
append each found variable to the list only when not already present. -/
def dedupAppend (acc : List Str) : List Str → List Str
  | [] => acc
  | v :: vs => dedupAppend (if v ∈ acc then acc else acc ++ [v]) vs

/-- Model of `FillValuesWorker.get_template_vars` (lines 54-70), with the file
content passed in (reading the file is the caller's I/O): returns the
content unchanged together with the deduplicated list of
`re.findall(r'\$\w+\$', content)` matches. -/
def get_template_vars (content : Str) : Str × List Str :=
  (content, dedupAppend [] (reFindall content))

/-- One `worksheet.write(row, col, v, fmt)` call, modelled on a grid of
cell contents: the last write to a cell wins. -/
def writeCell (g : Nat → Nat → Str) (row col : Nat) (v : Str) : Nat → Nat → Str :=
  fun r c => if r = row ∧ c = col then v else g r c

/-- The 500 by 50 blank prefill loop of `create_excel_form`
(workers.py lines 89-91), applied to a grid. -/
def prefillForm (g : Nat → Nat → Str) : Nat → Nat → Str :=
  (List.range 500).foldl
    (fun g1 r => (List.range 50).foldl (fun g2 c => writeCell g2 r c []) g1) g

/-- Model of `FillValuesWorker.create_excel_form` (lines 72-97) as the grid of cell
contents it writes: blank prefill, then the enumerate loop writing
variable `idx` at row `idx`, column 0 (lines 93-94). -/
def create_excel_form (varList : List Str) : Nat → Nat → Str :=
  varList.enum.foldl (fun g p => writeCell g p.1 0 p.2) (prefillForm (fun _ _ => []))

/-- What `write_rich_table` writes into one worksheet cell. -/
inductive CellWrite
  | rich (segs : List Segment)
  | styled (text : Str) (k : SegKind)
  | empty
deriving DecidableEq, Repr

/-- Membership test `fmt in cfg_line` of workers.py lines 176-182: whether
a format object occurs in the flat rich-string list, i.e. whether the line
has a segment of this kind. -/
def hasKind (line : List Segment) (k : SegKind) : Bool :=
  line.any (fun s => s.kind = k)

/-- Access `cfg_line[-1]`: the last element of the flat list, which is the text
of the last segment when the list is non-empty. -/
def lastTextD (line : List Segment) : Str :=
  ((line.getLast?).map Segment.text).getD []

/-- Python `str.strip()`: removes leading and trailing whitespace. -/
def pyStrip (s : Str) : Str :=
  ((s.dropWhile isPySpace).reverse.dropWhile isPySpace).reverse

/-- Right-trim only (`str.rstrip()`), used to state the claim's version of
the writer rule. -/
def pyRStrip (s : Str) : Str :=
  (s.reverse.dropWhile isPySpace).reverse

/-- The per-line branch of `write_rich_table` (workers.py lines 176-183):
the elif chain deciding how a rendered line is written. -/
def writeLineCell (line : List Segment) : CellWrite :=
  if hasKind line SegKind.literal &&
      (hasKind line SegKind.filled || hasKind line SegKind.unresolved) then
    CellWrite.rich line
  else if hasKind line SegKind.filled then
    CellWrite.styled (pyStrip (lastTextD line)) SegKind.filled
  else if hasKind line SegKind.unresolved then
    CellWrite.styled (pyStrip (lastTextD line)) SegKind.unresolved
  else if hasKind line SegKind.literal then
    CellWrite.styled (lastTextD line) SegKind.literal
  else
    CellWrite.empty

/-- The writer rule exactly as the specification states it: four mutually
exclusive cases in priority order, the single-kind cases writing the last
segment's text right-trimmed (UNRESOLVED before FILLED), and every line
matching no case writing nothing.  This definition follows the
specification's words, to be compared with `writeLineCell`, which follows
the code. -/
def claimedWriteCell (line : List Segment) : CellWrite :=
  if hasKind line SegKind.literal &&
      (hasKind line SegKind.filled || hasKind line SegKind.unresolved) then
    CellWrite.rich line
  else if hasKind line SegKind.unresolved && !hasKind line SegKind.literal &&
      !hasKind line SegKind.filled then
    CellWrite.styled (pyRStrip (lastTextD line)) SegKind.unresolved
  else if hasKind line SegKind.filled && !hasKind line SegKind.literal &&
      !hasKind line SegKind.unresolved then
    CellWrite.styled (pyRStrip (lastTextD line)) SegKind.filled
  else if hasKind line SegKind.literal && !hasKind line SegKind.filled &&
      !hasKind line SegKind.unresolved then
    CellWrite.styled (lastTextD line) SegKind.literal
  else
    CellWrite.empty

/-- The row loop of `write_rich_table` (lines 175-184): starting at
`row`, each line writes one cell in column `col` and `row_index` is
incremented once per line, whatever the line contained. -/
def writeRows (row col : Nat) : List (List Segment) → List (Nat × Nat × CellWrite)
  | [] => []
  | l :: ls => (row, col, writeLineCell l) :: writeRows (row + 1) col ls

/-- Model of `BuildOutputWorker.write_rich_table` (lines 162-184) as the list of
cell writes it performs. -/
def write_rich_table (cfgLines : List (List Segment)) (rowIndex colIndex : Nat) :
    List (Nat × Nat × CellWrite) :=
  writeRows rowIndex colIndex cfgLines

/-- The filled Value Form as read back through `xlrd`
(`sheet_by_index(0)` with `nrows`, `ncols`, `cell_value`). -/
structure Sheet where
  nrows : Nat
  ncols : Nat
  cell : Nat → Nat → Str

/-- The dict comprehension of workers.py lines 142-145: pairs
`(cell(row, 0), cell(row, col))` for `row` in `range(nrows)`. -/
def buildReplDict (ws : Sheet) (col : Nat) : List (Str × Str) :=
  (List.range ws.nrows).map (fun r => (ws.cell r 0, ws.cell r col))

/-- The column loop of `BuildOutputWorker.run` (lines 140-147): for
`col_idx` in `range(1, ncols)`, render the template under the mapping of
form column `col_idx` and write it at output column `col_idx - 1`,
rows starting at 0. -/
def buildOutputColumns (template : Str) (ws : Sheet) : List (List (Nat × Nat × CellWrite)) :=
  (List.range (ws.ncols - 1)).map
    (fun i => write_rich_table (sub_get_string template (buildReplDict ws (i + 1))) 0 i)

/-- The cleanup tail of `BuildOutputWorker.run` (lines 152-160), after the
output workbook has been closed: `os.remove` wrapped in `try/except` whose
handler logs the traceback.  The result of the removal attempt is passed
in as data; the function returns the untouched output artifact, whether
the run completes normally (it always does), and the logged messages. -/
def runCleanup (outputArtifact : List (List (Nat × Nat × CellWrite)))
    (removeResult : Except Str Unit) :
    List (List (Nat × Nat × CellWrite)) × Bool × List Str :=
  match removeResult with
  | Except.ok _ =>
    (outputArtifact, true, ["Variable form removed successfully".data, "Variables Replaced!".data])
  | Except.error e =>
    (outputArtifact, true, [e, "Variables Replaced!".data])

/-- First-occurrence deduplication as the specification words it: keep
each entry and erase its later duplicates, left to right.  This definition
follows the specification's words, to be compared with the `dedupAppend`
loop of the code. -/
def firstOccurs : List Str → List Str
  | [] => []
  | v :: vs => v :: firstOccurs (vs.filter (fun u => u ≠ v))
termination_by l => l.length
decreasing_by
  simp only [List.length_cons]
  exact Nat.lt_succ_of_le (List.length_filter_le _ _)

/-- The specification's round-trip right-hand side: the line with every
token occurrence replaced by its mapped value and all other characters
kept.  Follows the specification's words (claim C2), to be compared with
the segment texts the code produces. -/
def substAllGo (m : List (Str × Str)) : Nat → Str → Str
  | _, [] => []
  | 0, s => s
  | fuel + 1, c :: t =>
    match tryMatch (c :: t) with
    | some (tok, rest) => dictGetD m tok ++ substAllGo m fuel rest
    | none => c :: substAllGo m fuel t

/-- Replace every token match in `s` by its mapped value. -/
def substAll (m : List (Str × Str)) (s : Str) : Str :=
  substAllGo m s.length s

/-- The amended round-trip right-hand side: the line with every token
occurrence replaced by its mapped value and every blank (empty or
whitespace-only) literal fragment between matches dropped.  `cur`
accumulates the current literal fragment in reverse. -/
def substDropGo (m : List (Str × Str)) : Nat → Str → Str → Str
  | _, cur, [] => if isBlank cur.reverse then [] else cur.reverse
  | 0, cur, _ => if isBlank cur.reverse then [] else cur.reverse
  | fuel + 1, cur, c :: t =>
    match tryMatch (c :: t) with
    | some (tok, rest) =>
      (if isBlank cur.reverse then [] else cur.reverse) ++ dictGetD m tok ++
        substDropGo m fuel [] rest
    | none => substDropGo m fuel (c :: cur) t

/-- Replace tokens by values, dropping blank literal fragments. -/
def substDrop (m : List (Str × Str)) (s : Str) : Str :=
  substDropGo m s.length [] s

/-- Concatenation of the texts of a line's segments, in order. -/
def concatTexts (segs : List Segment) : Str :=
  (segs.map Segment.text).flatten

theorem reSplitFrom_length : ∀ s cur : Str,
    (reSplitFrom cur s).length = (reFindall s).length + 1 := by
  intro s
  induction s using scanInduction with
  | hnil => intro cur; simp [reSplitFrom_nil, reFindall_nil]
  | hmatch tok rest s hm ih =>
    intro cur
    rw [reSplitFrom_match cur hm, reFindall_match hm]
    simp [ih]
  | hstep c t hm ih =>
    intro cur
    rw [reSplitFrom_step cur hm, reFindall_step hm]
    exact ih (c :: cur)

theorem reSplit_length (line : Str) :
    (reSplit line).length = (reFindall line).length + 1 := by
  have h := reSplitFrom_length line []
  rwa [← reSplit_eq_from] at h

/-- C10: for every input line, `re.split` on the placeholder pattern
yields exactly one more literal fragment than `re.findall` yields matches,
and the fragment list is never empty; hence every index access
`non_reg[i]` for `i < len(reg)` and the final `non_reg[-1]` in
`sub_get_string` are in bounds, and the renderer is total. -/
theorem C10_split_findall_lengths (line : Str) :
    (reSplit line).length = (reFindall line).length + 1 ∧ reSplit line ≠ [] := by
  have h := reSplit_length line
  exact ⟨h, by intro hc; rw [hc] at h; simp at h⟩

theorem getLastD_of_ne_nil {l : List Str} (h : l ≠ []) (d1 d2 : Str) :
    l.getLastD d1 = l.getLastD d2 := by
  cases l with
  | nil => exact absurd rfl h
  | cons x xs => rfl

theorem emitLine_zip (m : List (Str × Str)) :
    ∀ (ts ls : List Str), ls.length = ts.length + 1 →
      emitLine m ls ts =
        ((ls.zip ts).flatMap fun p => litSeg p.1 ++ tokSeg m p.2) ++ litSeg (ls.getLastD []) := by
  intro ts
  induction ts with
  | nil =>
    intro ls h
    obtain ⟨l, rfl⟩ := List.length_eq_one.mp h
    simp [emitLine]
  | cons t ts ih =>
    intro ls h
    cases ls with
    | nil => simp at h
    | cons l ls =>
      simp only [List.length_cons, Nat.add_left_inj] at h
      have hne : ls ≠ [] := by
        intro hc; rw [hc] at h; simp at h
      simp only [emitLine, List.headD_cons, List.tail_cons, List.zip_cons_cons,
        List.flatMap_cons, ih ls h, List.getLastD_cons, List.append_assoc]
      rw [getLastD_of_ne_nil hne l []]

/-- C1: for every template line and every replacement mapping, the
renderer decomposes the line into the fragments and matches of the
placeholder pattern and emits, for each match in order, its preceding
literal fragment as a LITERAL segment only if not blank, then a FILLED
segment with the mapped value if that value is not blank, else an
UNRESOLVED segment carrying the original token text with its delimiters;
the trailing fragment is appended last, again only if not blank.  Each
token occurrence is looked up independently. -/
theorem C1_render_line_decomposition (line : Str) (m : List (Str × Str)) :
    subLine m line =
      (((reSplit line).zip (reFindall line)).flatMap fun p =>
        (if isBlank p.1 then [] else [⟨SegKind.literal, p.1⟩]) ++
        (if isBlank (dictGetD m p.2) then [⟨SegKind.unresolved, p.2⟩]
         else [⟨SegKind.filled, dictGetD m p.2⟩])) ++
      (if isBlank ((reSplit line).getLastD []) then []
       else [⟨SegKind.literal, (reSplit line).getLastD []⟩]) :=
  emitLine_zip m (reFindall line) (reSplit line) (reSplit_length line)

theorem mem_firstOccurs : ∀ (l : List Str) (x : Str), x ∈ firstOccurs l → x ∈ l := by
  suffices h : ∀ (n : Nat) (l : List Str), l.length ≤ n → ∀ x, x ∈ firstOccurs l → x ∈ l from
    fun l x hx => h l.length l le_rfl x hx
  intro n
  induction n with
  | zero =>
    intro l hl x hx
    have : l = [] := List.eq_nil_of_length_eq_zero (Nat.le_zero.mp hl)
    subst this
    simp [firstOccurs] at hx
  | succ n ih =>
    intro l hl x hx
    cases l with
    | nil => simp [firstOccurs] at hx
    | cons v vs =>
      rw [firstOccurs] at hx
      rcases List.mem_cons.mp hx with h | h
      · exact h ▸ List.mem_cons_self v vs
      · have hlen : (vs.filter (fun u => u ≠ v)).length ≤ n := by
          have h1 := List.length_filter_le (fun u => decide (u ≠ v)) vs
          simp only [List.length_cons] at hl
          omega
        have hmem := ih _ hlen x h
        exact List.mem_cons_of_mem v (List.mem_filter.mp hmem).1

theorem nodup_firstOccurs : ∀ l : List Str, (firstOccurs l).Nodup := by
  suffices h : ∀ (n : Nat) (l : List Str), l.length ≤ n → (firstOccurs l).Nodup from
    fun l => h l.length l le_rfl
  intro n
  induction n with
  | zero =>
    intro l hl
    have : l = [] := List.eq_nil_of_length_eq_zero (Nat.le_zero.mp hl)
    subst this
    simp [firstOccurs]
  | succ n ih =>
    intro l hl
    cases l with
    | nil => simp [firstOccurs]
    | cons v vs =>
      rw [firstOccurs]
      have hlen : (vs.filter (fun u => u ≠ v)).length ≤ n := by
        have h1 := List.length_filter_le (fun u => decide (u ≠ v)) vs
        simp only [List.length_cons] at hl
        omega
      refine List.nodup_cons.mpr ⟨fun hv => ?_, ih _ hlen⟩
      have := (List.mem_filter.mp (mem_firstOccurs _ _ hv)).2
      simp at this

theorem dedupAppend_eq : ∀ (l acc : List Str),
    dedupAppend acc l = acc ++ firstOccurs (l.filter (fun u => u ∉ acc)) := by
  intro l
  induction l with
  | nil => intro acc; simp [dedupAppend, firstOccurs]
  | cons v vs ih =>
    intro acc
    by_cases hv : v ∈ acc
    · have hpred : (decide (v ∉ acc) : Bool) = false := by simp [hv]
      simp only [dedupAppend, if_pos hv, List.filter_cons, hpred, Bool.false_eq_true,
        if_neg, ite_false]
      exact ih acc
    · have hpred : (decide (v ∉ acc) : Bool) = true := by simp [hv]
      simp only [dedupAppend, if_neg hv, List.filter_cons, hpred, if_pos, ite_true]
      rw [ih (acc ++ [v]), firstOccurs]
      have hfl : vs.filter (fun u => u ∉ acc ++ [v]) =
          (vs.filter (fun u => u ∉ acc)).filter (fun u => u ≠ v) := by
        rw [List.filter_filter]
        apply List.filter_congr
        intro u _
        by_cases h1 : u ∈ acc <;> by_cases h2 : u = v <;> simp [h1, h2]
      rw [hfl]
      simp [List.append_assoc]

/-- C4: `get_template_vars` passes the template text through unchanged and
returns the left-to-right matches of the pattern with duplicates removed,
first occurrence first: the deduplication loop of the code equals the
canonical first-occurrence deduplication of `re.findall`, the result has
no duplicates, and an empty template yields an empty token list. -/
theorem C4_scan_tokens (T : Str) :
    (get_template_vars T).1 = T ∧
    (get_template_vars T).2 = firstOccurs (reFindall T) ∧
    ((get_template_vars T).2).Nodup ∧
    (get_template_vars ([] : Str)).2 = [] := by
  have heq : ∀ c : Str, (get_template_vars c).2 = firstOccurs (reFindall c) := by
    intro c
    show dedupAppend [] (reFindall c) = _
    rw [dedupAppend_eq]
    have : (reFindall c).filter (fun u => u ∉ ([] : List Str)) = reFindall c := by
      apply List.filter_eq_self.mpr
      intro a _
      simp
    rw [this]
    simp
  refine ⟨rfl, heq T, ?_, ?_⟩
  · rw [heq T]; exact nodup_firstOccurs _
  · rw [heq []]; simp [reFindall_nil, firstOccurs]

/-- C5 counterexample: on the empty template the renderer does not return
one line with an empty segment sequence; `"".splitlines()` is the empty
list, so the renderer returns no lines at all. -/
theorem C5_cex_empty_template : sub_get_string [] [] ≠ [[]] := by decide

/-- C5 amended: for the empty template, `get_template_vars` returns an
empty token list and, for every mapping, `sub_get_string` returns the
empty sequence of lines (zero lines, since `splitlines` of the empty
string is empty). -/
theorem C5_empty_template (m : List (Str × Str)) :
    (get_template_vars ([] : Str)).2 = [] ∧ sub_get_string [] m = [] :=
  ⟨rfl, rfl⟩

/-- C8: scanning and rendering are deterministic functions of their
arguments: two calls of `get_template_vars` on equal contents agree, and
two calls of `sub_get_string` on equal templates and equal mappings agree;
both are pure functions of their inputs in this model (file reading is
surfaced to the caller, `sub_get_string` performs no I/O). -/
theorem C8_deterministic (T1 T2 : Str) (m1 m2 : List (Str × Str))
    (hT : T1 = T2) (hm : m1 = m2) :
    get_template_vars T1 = get_template_vars T2 ∧
    sub_get_string T1 m1 = sub_get_string T2 m2 := by
  subst hT
  subst hm
  exact ⟨rfl, rfl⟩

theorem C8_deterministic_witness :
    ("$A$".data = "$A$".data) ∧
    ([("$A$".data, "x".data)] = [("$A$".data, "x".data)]) ∧
    (get_template_vars "$A$".data = get_template_vars "$A$".data ∧
      sub_get_string "$A$".data [("$A$".data, "x".data)] =
        sub_get_string "$A$".data [("$A$".data, "x".data)]) :=
  ⟨rfl, rfl, C8_deterministic _ _ _ _ rfl rfl⟩

/-- C9: after the output workbook is closed, the `os.remove` of the Value
Form is wrapped in `try/except`: whether the removal succeeds or fails,
the run completes normally (failure is never propagated), the already
written output artifact is untouched, and a failing removal has its error
logged. -/
theorem C9_cleanup_suppressed (out : List (List (Nat × Nat × CellWrite))) (e : Str) :
    (runCleanup out (Except.ok ())).1 = out ∧
    (runCleanup out (Except.error e)).1 = out ∧
    (runCleanup out (Except.ok ())).2.1 = true ∧
    (runCleanup out (Except.error e)).2.1 = true ∧
    e ∈ (runCleanup out (Except.error e)).2.2 := by
  refine ⟨rfl, rfl, rfl, rfl, ?_⟩
  simp [runCleanup]

theorem foldl_writeCell_row_blank :
    ∀ (l : List Nat) (g : Nat → Nat → Str) (rr : Nat), (∀ r c, g r c = []) →
      ∀ r c, (l.foldl (fun g2 c0 => writeCell g2 rr c0 []) g) r c = [] := by
  intro l
  induction l with
  | nil => intro g rr hg; exact hg
  | cons a l ih =>
    intro g rr hg
    simp only [List.foldl_cons]
    apply ih
    intro r c
    simp only [writeCell]
    by_cases h : r = rr ∧ c = a
    · simp [h]
    · simp [h, hg r c]

theorem prefillForm_blank : ∀ r c, prefillForm (fun _ _ => []) r c = [] := by
  have hmain : ∀ (L : List Nat) (g : Nat → Nat → Str), (∀ r c, g r c = []) → ∀ r c,
      (L.foldl (fun g1 rr => (List.range 50).foldl (fun g2 c0 => writeCell g2 rr c0 []) g1) g)
        r c = [] := by
    intro L
    induction L with
    | nil => intro g hg; exact hg
    | cons a L ih =>
      intro g hg
      simp only [List.foldl_cons]
      exact ih _ (foldl_writeCell_row_blank _ _ _ hg)
  intro r c
  exact hmain (List.range 500) _ (fun _ _ => rfl) r c

theorem enumFoldSkip : ∀ (l : List Str) (k : Nat) (g : Nat → Nat → Str) (r c : Nat), r < k →
    ((l.enumFrom k).foldl (fun g p => writeCell g p.1 0 p.2) g) r c = g r c := by
  intro l
  induction l with
  | nil => intro k g r c _; rfl
  | cons v vs ih =>
    intro k g r c hr
    simp only [List.enumFrom, List.foldl_cons]
    rw [ih (k + 1) _ r c (Nat.lt_succ_of_lt hr)]
    simp only [writeCell]
    have hne : ¬(r = k ∧ c = 0) := fun h => absurd h.1 (Nat.ne_of_lt hr)
    simp [hne]

theorem enumFoldGet : ∀ (l : List Str) (k : Nat) (g : Nat → Nat → Str) (i : Nat),
    i < l.length →
    ((l.enumFrom k).foldl (fun g p => writeCell g p.1 0 p.2) g) (k + i) 0 = l.getD i [] := by
  intro l
  induction l with
  | nil => intro k g i hi; simp at hi
  | cons v vs ih =>
    intro k g i hi
    cases i with
    | zero =>
      simp only [List.enumFrom, List.foldl_cons]
      rw [enumFoldSkip vs (k + 1) _ (k + 0) 0 (by omega)]
      simp [writeCell]
    | succ j =>
      simp only [List.enumFrom, List.foldl_cons]
      have hkj : k + (j + 1) = (k + 1) + j := by omega
      have hj : j < vs.length := by
        simp only [List.length_cons] at hi
        omega
      rw [hkj, ih (k + 1) _ j hj]
      simp

/-- C7: in the generated Value Form, for every index `i` below the token
list length, the cell at row `i`, column 0 holds the `i`-th token, in
Token Set order (the blank 500 by 50 prefill happens first and the token
writes overwrite it). -/
theorem C7_form_labels (varList : List Str) (i : Nat) (h : i < varList.length) :
    create_excel_form varList i 0 = varList.getD i [] := by
  unfold create_excel_form
  have hmain := enumFoldGet varList 0 (prefillForm (fun _ _ => [])) i h
  simpa [List.enum] using hmain

theorem C7_form_labels_witness :
    0 < ([("$A$".data : Str), "$B$".data] : List Str).length ∧
    create_excel_form ["$A$".data, "$B$".data] 0 0 = (["$A$".data, "$B$".data] : List Str).getD 0 [] :=
  ⟨by decide, C7_form_labels _ 0 (by decide)⟩

/-- C3 counterexample: the writer does not implement the claimed four-case
rule.  A line with only a FILLED segment is written stripped on both ends,
not right-trimmed; and a line with FILLED and UNRESOLVED segments but no
LITERAL is written (with the highlight style) by the `elif fthl` branch,
whereas the claimed cases leave it matching none, hence writing nothing. -/
theorem C3_cex_writer_cases :
    writeLineCell [⟨SegKind.filled, " x".data⟩] ≠
      claimedWriteCell [⟨SegKind.filled, " x".data⟩] ∧
    writeLineCell [⟨SegKind.filled, "x".data⟩, ⟨SegKind.unresolved, "$B$".data⟩] ≠
      claimedWriteCell [⟨SegKind.filled, "x".data⟩, ⟨SegKind.unresolved, "$B$".data⟩] := by
  decide

/-- C3 amended: the writer applies the `elif` chain of the code: (1) a
LITERAL segment together with at least one FILLED or UNRESOLVED segment
writes the styled multi-segment string; (2) otherwise a line containing a
FILLED segment writes the last segment's text stripped of leading and
trailing whitespace with the highlight style (whether or not UNRESOLVED
segments are present); (3) otherwise a line containing an UNRESOLVED
segment writes the last segment's text stripped with the error style;
(4) otherwise a line containing a LITERAL segment writes the last
segment's text untrimmed with the body style; an empty segment sequence
writes nothing. -/
theorem C3_writer_cases (line : List Segment) :
    ((hasKind line SegKind.literal &&
        (hasKind line SegKind.filled || hasKind line SegKind.unresolved)) = true →
      writeLineCell line = CellWrite.rich line) ∧
    (hasKind line SegKind.literal = false → hasKind line SegKind.filled = true →
      writeLineCell line = CellWrite.styled (pyStrip (lastTextD line)) SegKind.filled) ∧
    (hasKind line SegKind.literal = false → hasKind line SegKind.filled = false →
      hasKind line SegKind.unresolved = true →
      writeLineCell line = CellWrite.styled (pyStrip (lastTextD line)) SegKind.unresolved) ∧
    (hasKind line SegKind.literal = true → hasKind line SegKind.filled = false →
      hasKind line SegKind.unresolved = false →
      writeLineCell line = CellWrite.styled (lastTextD line) SegKind.literal) ∧
    (line = [] → writeLineCell line = CellWrite.empty) := by
  refine ⟨?_, ?_, ?_, ?_, ?_⟩
  · intro h
    simp [writeLineCell, h]
  · intro h1 h2
    simp [writeLineCell, h1, h2]
  · intro h1 h2 h3
    simp [writeLineCell, h1, h2, h3]
  · intro h1 h2 h3
    simp [writeLineCell, h1, h2, h3]
  · intro h
    subst h
    decide

theorem C3_writer_cases_witness :
    ((hasKind [⟨SegKind.literal, "a".data⟩, ⟨SegKind.filled, "b".data⟩] SegKind.literal &&
        (hasKind [⟨SegKind.literal, "a".data⟩, ⟨SegKind.filled, "b".data⟩] SegKind.filled ||
          hasKind [⟨SegKind.literal, "a".data⟩, ⟨SegKind.filled, "b".data⟩] SegKind.unresolved))
        = true) ∧
    writeLineCell [⟨SegKind.literal, "a".data⟩, ⟨SegKind.filled, "b".data⟩] =
      CellWrite.rich [⟨SegKind.literal, "a".data⟩, ⟨SegKind.filled, "b".data⟩] :=
  ⟨by decide, (C3_writer_cases _).1 (by decide)⟩

theorem writeRows_length : ∀ (ls : List (List Segment)) (row col : Nat),
    (writeRows row col ls).length = ls.length := by
  intro ls
  induction ls with
  | nil => intro row col; rfl
  | cons l ls ih =>
    intro row col
    simp [writeRows, ih]

theorem writeRowsGet : ∀ (ls : List (List Segment)) (row col r : Nat), r < ls.length →
    (writeRows row col ls)[r]? = some (row + r, col, writeLineCell (ls.getD r [])) := by
  intro ls
  induction ls with
  | nil => intro row col r hr; simp at hr
  | cons l ls ih =>
    intro row col r hr
    cases r with
    | zero => simp [writeRows]
    | succ j =>
      have hj : j < ls.length := by
        simp only [List.length_cons] at hr
        omega
      simp only [writeRows, List.getElem?_cons_succ]
      have hrow : row + (j + 1) = (row + 1) + j := by omega
      rw [hrow, ih (row + 1) col j hj]
      simp

/-- C6: the output loop produces one column per Value Form instance
column: there are `ncols - 1` output columns, output column `c` is the
template rendered under the mapping of form column `c + 1` (column 0 being
the labels), written in increasing column order, and inside a column the
cell at row `r` is exactly the write decision for rendered template line
`r` — the row index starts at 0 and advances by one per template line
whatever the line's segments were. -/
theorem C6_output_grid (template : Str) (ws : Sheet) (c r : Nat)
    (hc : c < ws.ncols - 1) (hr : r < (pySplitlines template).length) :
    (buildOutputColumns template ws).length = ws.ncols - 1 ∧
    ((buildOutputColumns template ws).getD c []).length = (pySplitlines template).length ∧
    ((buildOutputColumns template ws).getD c [])[r]? =
      some (r, c, writeLineCell
        ((sub_get_string template (buildReplDict ws (c + 1))).getD r [])) := by
  have hcol : (buildOutputColumns template ws).getD c [] =
      write_rich_table (sub_get_string template (buildReplDict ws (c + 1))) 0 c := by
    unfold buildOutputColumns
    rw [List.getD_eq_getElem?_getD, List.getElem?_map, List.getElem?_range hc]
    rfl
  refine ⟨by simp [buildOutputColumns], ?_, ?_⟩
  · rw [hcol]
    unfold write_rich_table sub_get_string
    rw [writeRows_length]
    simp
  · rw [hcol]
    unfold write_rich_table
    have hlen : r < (sub_get_string template (buildReplDict ws (c + 1))).length := by
      unfold sub_get_string
      simpa using hr
    rw [writeRowsGet _ 0 c r hlen]
    simp

/-- A one-row, two-column filled Value Form used to instantiate
`C6_output_grid`: row 0 holds the token label and one instance value. -/
def sampleSheet : Sheet :=
  ⟨1, 2, fun r c => if r = 0 ∧ c = 0 then "$A$".data else if r = 0 ∧ c = 1 then "x".data else []⟩

theorem C6_output_grid_witness :
    (0 < sampleSheet.ncols - 1 ∧ 0 < (pySplitlines "$A$".data).length) ∧
    ((buildOutputColumns "$A$".data sampleSheet).length = sampleSheet.ncols - 1 ∧
      ((buildOutputColumns "$A$".data sampleSheet).getD 0 []).length =
        (pySplitlines "$A$".data).length ∧
      ((buildOutputColumns "$A$".data sampleSheet).getD 0 [])[0]? =
        some (0, 0, writeLineCell
          ((sub_get_string "$A$".data (buildReplDict sampleSheet (0 + 1))).getD 0 []))) :=
  ⟨⟨by decide, by decide⟩, C6_output_grid "$A$".data sampleSheet 0 0 (by decide) (by decide)⟩


theorem tryMatch_not_dollar {c : Char} {t : Str} (h : c ≠ '$') : tryMatch (c :: t) = none := by
  simp [tryMatch, h]

theorem tryMatch_append (a b : Str) (x : Char) (hw : isWordChar x = false) (hx : x ≠ '$') :
    tryMatch (a ++ x :: b) = (tryMatch a).map (fun p => (p.1, p.2 ++ x :: b)) := by
  cases a with
  | nil =>
    rw [List.nil_append, tryMatch_not_dollar hx]
    rfl
  | cons c t =>
    by_cases hc : c = '$'
    · subst hc
      have hsplit := List.takeWhile_append_dropWhile isWordChar t
      cases hdw : t.dropWhile isWordChar with
      | nil =>
        have htw : t.takeWhile isWordChar = t := by
          rw [hdw] at hsplit
          simpa using hsplit
        have h1 : (t ++ x :: b).dropWhile isWordChar = x :: b := by
          rw [List.dropWhile_append, hdw]
          simp [List.dropWhile_cons, hw]
        have h2 : (t ++ x :: b).takeWhile isWordChar = t := by
          rw [List.takeWhile_append, htw]
          simp [List.takeWhile_cons, hw]
        show tryMatch ('$' :: (t ++ x :: b)) = _
        simp only [tryMatch, if_pos rfl, h1, h2, hdw]
        simp [hx]
      | cons d ds =>
        have hlen : ¬((t.takeWhile isWordChar).length = t.length) := by
          have hl := congrArg List.length hsplit
          rw [hdw] at hl
          simp only [List.length_append, List.length_cons] at hl
          omega
        have h1 : (t ++ x :: b).dropWhile isWordChar = d :: (ds ++ x :: b) := by
          rw [List.dropWhile_append, hdw]
          simp
        have h2 : (t ++ x :: b).takeWhile isWordChar = t.takeWhile isWordChar := by
          rw [List.takeWhile_append]
          simp [hlen]
        show tryMatch ('$' :: (t ++ x :: b)) = _
        simp only [tryMatch, if_pos rfl, h1, h2, hdw]
        by_cases hdd : d = '$'
        · subst hdd
          by_cases he : (t.takeWhile isWordChar).isEmpty <;> simp [he]
        · simp [hdd]
    · have hca : (c :: t) ++ x :: b = c :: (t ++ x :: b) := rfl
      rw [hca, tryMatch_not_dollar hc, tryMatch_not_dollar hc]
      rfl

end ScriptReplacer

namespace ScriptReplacer

theorem reFindall_append_sep (b : Str) (x : Char) (hw : isWordChar x = false) (hx : x ≠ '$') :
    ∀ a : Str, reFindall (a ++ x :: b) = reFindall a ++ reFindall b := by
  intro a
  induction a using scanInduction with
  | hnil =>
    rw [List.nil_append, reFindall_nil, List.nil_append, reFindall_step (tryMatch_not_dollar hx)]
  | hmatch tok rest s hm ih =>
    have hm2 : tryMatch (s ++ x :: b) = some (tok, rest ++ x :: b) := by
      rw [tryMatch_append s b x hw hx, hm]
      rfl
    rw [reFindall_match hm2, ih, reFindall_match hm]
    rfl
  | hstep c t hm ih =>
    have hm2 : tryMatch (c :: (t ++ x :: b)) = none := by
      have := tryMatch_append (c :: t) b x hw hx
      rw [hm] at this
      simpa using this
    have hca : (c :: t) ++ x :: b = c :: (t ++ x :: b) := rfl
    rw [hca, reFindall_step hm2, ih, reFindall_step hm]

theorem reFindall_splitlines : ∀ (s cur : Str),
    reFindall (cur.reverse ++ s) = (splitlinesGo cur s).flatMap reFindall := by
  suffices h : ∀ (n : Nat) (s : Str), s.length ≤ n → ∀ cur : Str,
      reFindall (cur.reverse ++ s) = (splitlinesGo cur s).flatMap reFindall from
    fun s cur => h s.length s le_rfl cur
  intro n
  induction n with
  | zero =>
    intro s hs cur
    have : s = [] := List.eq_nil_of_length_eq_zero (Nat.le_zero.mp hs)
    subst this
    by_cases hcur : cur = []
    · subst hcur
      simp [splitlinesGo, reFindall_nil]
    · have hne : cur.isEmpty = false := by simpa [List.isEmpty_iff] using hcur
      simp [splitlinesGo, hne]
  | succ n ih =>
    intro s hs cur
    cases s with
    | nil =>
      by_cases hcur : cur = []
      · subst hcur
        simp [splitlinesGo, reFindall_nil]
      · have hne : cur.isEmpty = false := by simpa [List.isEmpty_iff] using hcur
        simp [splitlinesGo, hne]
    | cons c t =>
      simp only [List.length_cons] at hs
      by_cases hr : c = '\r'
      · subst hr
        cases t with
        | nil =>
          have hsep := reFindall_append_sep [] '\r' (by decide) (by decide) cur.reverse
          rw [hsep, reFindall_nil]
          simp [splitlinesGo]
        | cons c2 t2 =>
          simp only [List.length_cons] at hs
          by_cases hn : c2 = '\n'
          · subst hn
            have hsep := reFindall_append_sep ('\n' :: t2) '\r' (by decide) (by decide)
              cur.reverse
            have ih2 := ih t2 (by omega) []
            simp only [List.reverse_nil, List.nil_append] at ih2
            rw [hsep, reFindall_step (tryMatch_not_dollar (by decide)), ih2]
            simp [splitlinesGo]
          · have hsep := reFindall_append_sep (c2 :: t2) '\r' (by decide) (by decide)
              cur.reverse
            have ih2 := ih (c2 :: t2) (by simp only [List.length_cons]; omega) []
            simp only [List.reverse_nil, List.nil_append] at ih2
            rw [hsep, ih2]
            simp [splitlinesGo, hn]
      · by_cases hnl : c = '\n'
        · subst hnl
          have hsep := reFindall_append_sep t '\n' (by decide) (by decide) cur.reverse
          have ih2 := ih t (by omega) []
          simp only [List.reverse_nil, List.nil_append] at ih2
          rw [hsep, ih2]
          simp [splitlinesGo]
        · have hstep : cur.reverse ++ c :: t = (c :: cur).reverse ++ t := by
            rw [List.reverse_cons, List.append_assoc]
            rfl
          rw [hstep, ih t (by omega) (c :: cur)]
          simp [splitlinesGo, hr, hnl]

theorem mem_firstOccurs_of_mem : ∀ (l : List Str) (x : Str), x ∈ l → x ∈ firstOccurs l := by
  suffices h : ∀ (n : Nat) (l : List Str), l.length ≤ n → ∀ x, x ∈ l → x ∈ firstOccurs l from
    fun l x hx => h l.length l le_rfl x hx
  intro n
  induction n with
  | zero =>
    intro l hl x hx
    have : l = [] := List.eq_nil_of_length_eq_zero (Nat.le_zero.mp hl)
    subst this
    simp at hx
  | succ n ih =>
    intro l hl x hx
    cases l with
    | nil => simp at hx
    | cons v vs =>
      rw [firstOccurs]
      by_cases hxv : x = v
      · subst hxv
        exact List.mem_cons_self x _
      · have hxvs : x ∈ vs := by
          rcases List.mem_cons.mp hx with h | h
          · exact absurd h hxv
          · exact h
        have hmem : x ∈ vs.filter (fun u => u ≠ v) :=
          List.mem_filter.mpr ⟨hxvs, by simp [hxv]⟩
        have hlen : (vs.filter (fun u => u ≠ v)).length ≤ n := by
          have h1 := List.length_filter_le (fun u => decide (u ≠ v)) vs
          simp only [List.length_cons] at hl
          omega
        exact List.mem_cons_of_mem v (ih _ hlen x hmem)

theorem tokens_eq_firstOccurs (c : Str) :
    (get_template_vars c).2 = firstOccurs (reFindall c) := by
  show dedupAppend [] (reFindall c) = _
  rw [dedupAppend_eq]
  have hfil : (reFindall c).filter (fun u => u ∉ ([] : List Str)) = reFindall c := by
    apply List.filter_eq_self.mpr
    intro a _
    simp
  rw [hfil]
  simp

theorem mem_tokens_iff (c : Str) (x : Str) :
    x ∈ (get_template_vars c).2 ↔ x ∈ reFindall c := by
  rw [tokens_eq_firstOccurs]
  exact ⟨mem_firstOccurs _ x, mem_firstOccurs_of_mem _ x⟩

theorem reFindall_flatMap_lines (s : Str) :
    reFindall s = (pySplitlines s).flatMap reFindall := by
  have h := reFindall_splitlines s []
  simpa [pySplitlines] using h

theorem substDropGo_fuel {m : List (Str × Str)} {f1 f2 : Nat} :
    ∀ {cur s : Str}, s.length ≤ f1 → s.length ≤ f2 →
      substDropGo m f1 cur s = substDropGo m f2 cur s := by
  induction f1 generalizing f2 with
  | zero =>
    intro cur s h1 _
    have : s = [] := List.eq_nil_of_length_eq_zero (Nat.le_zero.mp h1)
    subst this
    cases f2 <;> rfl
  | succ f1 ih =>
    intro cur s h1 h2
    cases s with
    | nil => cases f2 <;> rfl
    | cons c t =>
      cases f2 with
      | zero => simp at h2
      | succ f2 =>
        simp only [substDropGo]
        cases hm : tryMatch (c :: t) with
        | some p =>
          obtain ⟨tok, rest⟩ := p
          have hlt := tryMatch_some_length hm
          simp only [List.length_cons] at h1 h2 hlt
          show (if isBlank cur.reverse = true then [] else cur.reverse) ++ dictGetD m tok ++
              substDropGo m f1 [] rest =
            (if isBlank cur.reverse = true then [] else cur.reverse) ++ dictGetD m tok ++
              substDropGo m f2 [] rest
          rw [@ih f2 [] rest (by omega) (by omega)]
        | none =>
          simp only [List.length_cons] at h1 h2
          exact ih (by omega) (by omega)

/-- Evaluation of `substDropGo` with sufficient fuel, started with accumulator `cur`. -/
def substDropFrom (m : List (Str × Str)) (cur s : Str) : Str :=
  substDropGo m s.length cur s

theorem substDrop_eq_from (m : List (Str × Str)) (s : Str) :
    substDrop m s = substDropFrom m [] s := rfl

theorem substDropFrom_nil (m : List (Str × Str)) (cur : Str) :
    substDropFrom m cur [] = if isBlank cur.reverse then [] else cur.reverse := rfl

theorem substDropFrom_match {s tok rest : Str} (m : List (Str × Str)) (cur : Str)
    (h : tryMatch s = some (tok, rest)) :
    substDropFrom m cur s =
      (if isBlank cur.reverse then [] else cur.reverse) ++ dictGetD m tok ++
        substDropFrom m [] rest := by
  cases s with
  | nil => simp [tryMatch] at h
  | cons c t =>
    have hlt := tryMatch_some_length h
    simp only [substDropFrom, List.length_cons, substDropGo, h]
    rw [substDropGo_fuel (by simp only [List.length_cons] at hlt; omega) le_rfl]

theorem substDropFrom_step {c : Char} {t : Str} (m : List (Str × Str)) (cur : Str)
    (h : tryMatch (c :: t) = none) :
    substDropFrom m cur (c :: t) = substDropFrom m (c :: cur) t := by
  simp only [substDropFrom, List.length_cons, substDropGo, h]

theorem concatTexts_append (a b : List Segment) :
    concatTexts (a ++ b) = concatTexts a ++ concatTexts b := by
  simp [concatTexts]

theorem concatTexts_litSeg (l : Str) :
    concatTexts (litSeg l) = if isBlank l then [] else l := by
  by_cases h : isBlank l <;> simp [litSeg, concatTexts, h]

theorem concatTexts_tokSeg_nonblank {m : List (Str × Str)} {t : Str}
    (h : isBlank (dictGetD m t) = false) :
    concatTexts (tokSeg m t) = dictGetD m t := by
  simp [tokSeg, concatTexts, h]

theorem mem_litSeg {l : Str} {s : Segment} (h : s ∈ litSeg l) :
    s.kind = SegKind.literal := by
  unfold litSeg at h
  by_cases hb : isBlank l
  · simp [hb] at h
  · simp only [hb, Bool.false_eq_true, not_false_eq_true, if_neg, List.mem_singleton] at h
    subst h
    rfl

theorem mem_tokSeg_nonblank {m : List (Str × Str)} {t : Str} {s : Segment}
    (hv : isBlank (dictGetD m t) = false) (h : s ∈ tokSeg m t) :
    s.kind = SegKind.filled := by
  simp only [tokSeg, hv, Bool.false_eq_true, not_false_eq_true, if_neg,
    List.mem_singleton] at h
  subst h
  rfl

theorem emitLine_no_unres (m : List (Str × Str)) :
    ∀ (ts ls : List Str), (∀ t ∈ ts, isBlank (dictGetD m t) = false) →
      ∀ s ∈ emitLine m ls ts, s.kind ≠ SegKind.unresolved := by
  intro ts
  induction ts with
  | nil =>
    intro ls _ s hs
    simp only [emitLine] at hs
    rw [mem_litSeg hs]
    simp
  | cons t ts ih =>
    intro ls hH s hs
    simp only [emitLine, List.mem_append] at hs
    rcases hs with (hs | hs) | hs
    · rw [mem_litSeg hs]
      simp
    · have hv : isBlank (dictGetD m t) = false := hH t (List.mem_cons_self t ts)
      rw [mem_tokSeg_nonblank hv hs]
      simp
    · exact ih ls.tail (fun u hu => hH u (List.mem_cons_of_mem t hu)) s hs

theorem concat_emitLine (m : List (Str × Str)) : ∀ s : Str,
    (∀ t ∈ reFindall s, isBlank (dictGetD m t) = false) → ∀ cur : Str,
      concatTexts (emitLine m (reSplitFrom cur s) (reFindall s)) = substDropFrom m cur s := by
  intro s
  induction s using scanInduction with
  | hnil =>
    intro _ cur
    rw [reFindall_nil, reSplitFrom_nil, substDropFrom_nil]
    exact concatTexts_litSeg cur.reverse
  | hmatch tok rest s hm ih =>
    intro hH cur
    have htok : isBlank (dictGetD m tok) = false := by
      apply hH
      rw [reFindall_match hm]
      exact List.mem_cons_self tok _
    have hrest : ∀ t ∈ reFindall rest, isBlank (dictGetD m t) = false := by
      intro t ht
      apply hH
      rw [reFindall_match hm]
      exact List.mem_cons_of_mem tok ht
    rw [reSplitFrom_match cur hm, reFindall_match hm, substDropFrom_match m cur hm]
    simp only [emitLine, List.headD_cons, List.tail_cons]
    rw [concatTexts_append, concatTexts_append, concatTexts_litSeg,
      concatTexts_tokSeg_nonblank htok, ih hrest []]
  | hstep c t hm ih =>
    intro hH cur
    have hH2 : ∀ u ∈ reFindall t, isBlank (dictGetD m u) = false := by
      intro u hu
      apply hH
      rw [reFindall_step hm]
      exact hu
    rw [reSplitFrom_step cur hm, reFindall_step hm, substDropFrom_step m cur hm]
    exact ih hH2 (c :: cur)

theorem subLine_concat (m : List (Str × Str)) (line : Str)
    (h : ∀ t ∈ reFindall line, isBlank (dictGetD m t) = false) :
    concatTexts (subLine m line) = substDrop m line := by
  have hmain := concat_emitLine m line h []
  unfold subLine
  rw [reSplit_eq_from, substDrop_eq_from]
  exact hmain

/-- C2 counterexample: with every token mapped to a non-blank value,
reassembling the rendered segment texts does not in general reproduce the
line with tokens replaced: a whitespace-only literal fragment (here the
leading space of " $A$") is dropped by the renderer, so the reassembled
line is "x" and not " x". -/
theorem C2_cex_round_trip :
    (∀ t ∈ (get_template_vars " $A$".data).2,
      isBlank (dictGetD [("$A$".data, "x".data)] t) = false) ∧
    (sub_get_string " $A$".data [("$A$".data, "x".data)]).map concatTexts ≠
      (pySplitlines " $A$".data).map (substAll [("$A$".data, "x".data)]) := by
  constructor
  · decide
  · decide

/-- C2 amended: if every token of `tokens(T)` is mapped to a non-blank
value, then the rendering contains no UNRESOLVED segment, and
concatenating each line's segment texts in order reproduces the line with
every token occurrence replaced by its mapped value and every blank
(empty or whitespace-only) literal fragment dropped. -/
theorem C2_round_trip (T : Str) (m : List (Str × Str))
    (H : ∀ t ∈ (get_template_vars T).2, isBlank (dictGetD m t) = false) :
    (∀ segs ∈ sub_get_string T m, ∀ s ∈ segs, s.kind ≠ SegKind.unresolved) ∧
    (sub_get_string T m).map concatTexts = (pySplitlines T).map (substDrop m) := by
  have Hline : ∀ line ∈ pySplitlines T, ∀ t ∈ reFindall line,
      isBlank (dictGetD m t) = false := by
    intro line hline t ht
    apply H
    rw [mem_tokens_iff, reFindall_flatMap_lines]
    exact List.mem_flatMap.mpr ⟨line, hline, ht⟩
  constructor
  · intro segs hsegs s hs
    obtain ⟨line, hline, rfl⟩ := List.mem_map.mp hsegs
    exact emitLine_no_unres m (reFindall line) (reSplit line) (Hline line hline) s hs
  · unfold sub_get_string
    rw [List.map_map]
    apply List.map_congr_left
    intro line hline
    exact subLine_concat m line (Hline line hline)

theorem C2_round_trip_witness :
    (∀ t ∈ (get_template_vars "host=$HOST$".data).2,
      isBlank (dictGetD [("$HOST$".data, "db01".data)] t) = false) ∧
    ((∀ segs ∈ sub_get_string "host=$HOST$".data [("$HOST$".data, "db01".data)],
        ∀ s ∈ segs, s.kind ≠ SegKind.unresolved) ∧
      (sub_get_string "host=$HOST$".data [("$HOST$".data, "db01".data)]).map concatTexts =
        (pySplitlines "host=$HOST$".data).map (substDrop [("$HOST$".data, "db01".data)])) :=
  ⟨by decide, C2_round_trip _ _ (by decide)⟩

end ScriptReplacer
